import Mathlib

/-! Shallow embedding of the electron-phonon FCI module pygfn/eph/_fci.py.

A composite state tensor of shape (na, nb, nph_max+1, ..., nph_max+1) is
embedded as a function from an electronic determinant-pair index and a
phonon configuration (one occupation number per mode) to a real amplitude.
The external pyscf electronic capabilities (contract_1e, contract_2e,
make_hdiag, absorb_h1e) and the Davidson eigensolver are injected as opaque
function parameters, exactly as the specification treats them (external
collaborators consumed as capabilities).  The accumulate loops of the
source (slice updates of the form hc[s] += data * f) are embedded as
List.foldl passes over the loop ranges, one fold step per loop iteration. -/

namespace Pygfn

noncomputable section

/-- Phonon configuration: an occupation number for each of the nmode modes. -/
abbrev Conf (nmode : ℕ) := Fin nmode → ℕ

/-- Electronic determinant-pair index (alpha string, beta string). -/
abbrev EIdx (na nb : ℕ) := Fin na × Fin nb

/-- Composite state tensor of shape (na, nb, nph_max+1, ..., nph_max+1):
amplitudes indexed by an electronic pair and a phonon configuration. -/
abbrev CTen (na nb nmode : ℕ) := EIdx na nb → Conf nmode → ℝ

/-- A purely electronic vector (one phonon column of the composite tensor),
of flattened length na * nb. -/
abbrev ECol (na nb : ℕ) := EIdx na nb → ℝ

/-- One-body matrix over nsite sites. -/
abbrev Mat2 (n : ℕ) := Fin n → Fin n → ℝ

/-- Four-index two-body tensor over nsite sites. -/
abbrev Mat4 (n : ℕ) := Fin n → Fin n → Fin n → Fin n → ℝ

/-- Electron-phonon coupling tensor h1e1p of shape (nsite, nsite, nmode). -/
abbrev EPMat (nsite nmode : ℕ) := Fin nsite → Fin nsite → Fin nmode → ℝ

/-- Injected electronic one-electron contraction capability: models
fci_obj.contract_1e(mat, vec, nsite, nelec) for the fixed electron sector,
acting on one phonon column reshaped to (na, nb). -/
abbrev C1E (nsite na nb : ℕ) := Mat2 nsite → ECol na nb → ECol na nb

/-- Injected electronic two-electron contraction capability: models
fci_obj.contract_2e(h2e, vec, nsite, nelec) for the fixed electron sector. -/
abbrev C2E (nsite na nb : ℕ) := Mat4 nsite → ECol na nb → ECol na nb

/-- The ladder factor table of _fci.py:
factors = numpy.sqrt(numpy.arange(1, nph_max + 1)); the entry used at inner
loop index nph is factors[nph] = sqrt(nph + 1). -/
def factor (nph : ℕ) : ℝ := Real.sqrt ((nph : ℝ) + 1)

/-- The all-zero phonon configuration (vacuum). -/
def zeroConf (nmode : ℕ) : Conf nmode := fun _ => 0

/-- The phonon configuration is inside the truncation box: every occupation
number is at most nph_max. These are exactly the configurations addressed
by the numpy array axes of size nph_max + 1. -/
def InBox (nphMax : ℕ) {nmode : ℕ} (p : Conf nmode) : Prop :=
  ∀ alph, p alph ≤ nphMax

/-- The tensor vanishes outside the truncation box (it carries no amplitude
at any phonon occupation above nph_max). -/
def SuppIn (na nb nmode nphMax : ℕ) (v : CTen na nb nmode) : Prop :=
  ∀ x p, ¬ InBox nphMax p → v x p = 0

/-- Embedding of contract_h2e (_fci.py lines 35-50): the composite tensor is
reshaped to (na*nb, P) and the injected electronic two-electron contraction
is applied independently to each phonon column; the reshape/transpose
bookkeeping of the source is the identity on our structured index space. -/
def contract_h2e (nsite na nb nmode : ℕ) (c2e : C2E nsite na nb)
    (h2e : Mat4 nsite) (v : CTen na nb nmode) : CTen na nb nmode :=
  fun x p => c2e h2e (fun y => v y p) x

/-- The per-mode electronically contracted tensor hc_e of contract_h1e1p
(_fci.py lines 67-70): the injected contract_1e with one-body matrix
h1e1p[..., alph], applied independently to each phonon column. -/
def hcE_of (nsite na nb nmode : ℕ) (c1e : C1E nsite na nb)
    (h1e1p : EPMat nsite nmode) (v : CTen na nb nmode) (alph : Fin nmode) :
    CTen na nb nmode :=
  fun x p => c1e (fun i j => h1e1p i j alph) (fun y => v y p) x

/-- Embedding of contract_h1e1p (_fci.py lines 52-79).  hc starts at zero;
for each mode alph and each nph in range(nph_max) with f = factors[nph]
= sqrt(nph+1), the two slice updates
  hc[slices_for_cre(alph, nmode, nph)] += hc_e[slices_for(alph, nmode, nph)] * f
  hc[slices_for(alph, nmode, nph)]     += hc_e[slices_for_cre(alph, nmode, nph)] * f
are performed; a component at configuration p with p alph = nph + 1 receives
hc_e at p with mode alph lowered to nph, and a component with p alph = nph
receives hc_e at p with mode alph raised to nph + 1. -/
def contract_h1e1p (nsite na nb nmode nphMax : ℕ) (c1e : C1E nsite na nb)
    (h1e1p : EPMat nsite nmode) (v : CTen na nb nmode) : CTen na nb nmode :=
  (List.finRange nmode).foldl
    (fun hc alph =>
      (List.range nphMax).foldl
        (fun hc2 nph => fun x p =>
          hc2 x p +
            ((if p alph = nph + 1 then
                hcE_of nsite na nb nmode c1e h1e1p v alph x
                  (Function.update p alph nph) * factor nph
              else 0) +
             (if p alph = nph then
                hcE_of nsite na nb nmode c1e h1e1p v alph x
                  (Function.update p alph (nph + 1)) * factor nph
              else 0)))
        hc)
    (fun _ _ => 0)

/-- Stage 1 of contract_h1p (_fci.py lines 88-94): the lowered tensor
t1[alph], built from zeros by t1[(alph,) + s0] += c[s1] * f for nph in
range(nph_max), s0 the slice at occupation nph and s1 at nph + 1 of mode
alph.  The t1 block of mode alph is only written during pass alph of the
outer loop, so it is defined blockwise. -/
def ph_t1 (na nb nmode nphMax : ℕ) (v : CTen na nb nmode) (alph : Fin nmode) :
    CTen na nb nmode :=
  (List.range nphMax).foldl
    (fun t nph => fun x p =>
      t x p +
        (if p alph = nph then
          v x (Function.update p alph (nph + 1)) * factor nph
        else 0))
    (fun _ _ => 0)

/-- Stage 2 of contract_h1p (_fci.py line 96): the mode-mixing matrix
multiply t1 = lib.dot(h1p, t1.reshape(nmode, -1)).reshape(t1.shape),
i.e. mixed[alph] = sum over bet of h1p[alph, bet] * t1[bet]. -/
def ph_t1_mix (na nb nmode nphMax : ℕ) (h1p : Mat2 nmode)
    (v : CTen na nb nmode) (alph : Fin nmode) : CTen na nb nmode :=
  fun x p => ∑ bet : Fin nmode, h1p alph bet * ph_t1 na nb nmode nphMax v bet x p

/-- Embedding of contract_h1p (_fci.py lines 81-104): after lowering and
mode mixing, the raising pass hc[s1] += t1[(alph,) + s0] * f accumulates,
for each mode alph and nph in range(nph_max), the mixed tensor at
occupation nph into the output at occupation nph + 1, scaled by
f = sqrt(nph + 1), starting from zeros. -/
def contract_h1p (na nb nmode nphMax : ℕ) (h1p : Mat2 nmode)
    (v : CTen na nb nmode) : CTen na nb nmode :=
  (List.finRange nmode).foldl
    (fun hc alph =>
      (List.range nphMax).foldl
        (fun hc2 nph => fun x p =>
          hc2 x p +
            (if p alph = nph + 1 then
              ph_t1_mix na nb nmode nphMax h1p v alph x
                (Function.update p alph nph) * factor nph
            else 0))
        hc)
    (fun _ _ => 0)

/-- Row-major (C order) flat index of a phonon configuration within the
block of (nph_max+1)^nmode phonon configurations: the trailing axes of the
composite shape vary fastest. -/
def pidx (nphMax : ℕ) {nmode : ℕ} (p : Conf nmode) : ℕ :=
  ∑ alph : Fin nmode, p alph * (nphMax + 1) ^ (nmode - 1 - (alph : ℕ))

/-- The beta-string column actually read by the broadcast step of
make_hdiag (_fci.py line 114).  numpy.hstack([hdiag_e] * P) with
P = (nph_max+1)^nmode concatenates P copies of hdiag_e along the column
axis, so its column j holds hdiag_e[:, j % nb]; the subsequent C-order
reshape to the composite shape places flat column j = ib * P + pidx(p) at
composite position (ib, p).  Hence position (ia, ib, p) reads
hdiag_e[ia, (ib * P + pidx p) % nb]. -/
def scrCol (nphMax : ℕ) {nb nmode : ℕ} (ib : Fin nb) (p : Conf nmode) : Fin nb :=
  ⟨((ib : ℕ) * (nphMax + 1) ^ nmode + pidx nphMax p) % nb, Nat.mod_lt _ ib.pos⟩

/-- Embedding of make_hdiag (_fci.py lines 106-124).  hdiagE is the result
of the injected electronic diagonal capability
fci_obj.make_hdiag(h1e, eri, nsite, nelec), reshaped to (na, nb).  The
hstack broadcast (lines 113-114) gives the initial array; the loop
(lines 116-122) then adds nph + 1 on the slice of mode alph at occupation
nph, for every mode and every nph in range(nph_max + 1). -/
def make_hdiag (na nb nmode nphMax : ℕ) (hdiagE : Fin na → Fin nb → ℝ) :
    CTen na nb nmode :=
  (List.finRange nmode).foldl
    (fun hd alph =>
      (List.range (nphMax + 1)).foldl
        (fun hd2 nph => fun x p =>
          hd2 x p + (if p alph = nph then ((nph : ℝ) + 1) else 0))
        hd)
    (fun x p => hdiagE x.1 (scrCol nphMax x.2 p))

/-- Embedding of the matrix-free operator hop built inside kernel
(_fci.py lines 151-156): the sum of the absorbed two-electron term, the
electron-phonon coupling term and the phonon-phonon term. -/
def hop (nsite na nb nmode nphMax : ℕ) (c1e : C1E nsite na nb)
    (c2e : C2E nsite na nb) (h2e : Mat4 nsite) (h1e1p : EPMat nsite nmode)
    (h1p : Mat2 nmode) (v : CTen na nb nmode) : CTen na nb nmode :=
  fun x p =>
    contract_h2e nsite na nb nmode c2e h2e v x p
      + contract_h1e1p nsite na nb nmode nphMax c1e h1e1p v x p
      + contract_h1p na nb nmode nphMax h1p v x p

/-- Step 1 of the default initial guess of kernel (_fci.py lines 136-137):
a zero tensor with amplitude 1.0 at the reference configuration -- both
electronic string indices 0 and the phonon vacuum. -/
def ci0_ref (na nb nmode : ℕ) : CTen na nb nmode :=
  fun x p =>
    if (x.1 : ℕ) = 0 ∧ (x.2 : ℕ) = 0 ∧ p = zeroConf nmode then 1 else 0

/-- Step 2 (_fci.py line 140): ci0[0, :] += rand1 * noise adds scaled
random values on the whole slice with alpha-string index 0 (all beta
strings, all phonon configurations). -/
def ci0_noise1 (na nb nmode : ℕ) (eps : ℝ) (r1 : Fin nb → Conf nmode → ℝ) :
    CTen na nb nmode :=
  fun x p =>
    if (x.1 : ℕ) = 0 then ci0_ref na nb nmode x p + r1 x.2 p * eps
    else ci0_ref na nb nmode x p

/-- Step 3 (_fci.py line 141): ci0[:, 0] += rand2 * noise adds scaled
random values on the whole slice with beta-string index 0. -/
def ci0_noise2 (na nb nmode : ℕ) (eps : ℝ) (r1 : Fin nb → Conf nmode → ℝ)
    (r2 : Fin na → Conf nmode → ℝ) : CTen na nb nmode :=
  fun x p =>
    if (x.2 : ℕ) = 0 then ci0_noise1 na nb nmode eps r1 x p + r2 x.1 p * eps
    else ci0_noise1 na nb nmode eps r1 x p

/-- The initial guess built by kernel when ci0 is None (_fci.py lines
134-141); r1 and r2 are the two draws of the injected random source. -/
def initGuess (na nb nmode : ℕ) (noise : Option ℝ)
    (r1 : Fin nb → Conf nmode → ℝ) (r2 : Fin na → Conf nmode → ℝ) :
    CTen na nb nmode :=
  match noise with
  | none => ci0_ref na nb nmode
  | some eps => ci0_noise2 na nb nmode eps r1 r2

/-- Embedding of kernel (_fci.py lines 126-165).  dav is the injected
Davidson eigensolver capability lib.davidson (operator, initial guess,
preconditioner, tol, max_cycle -> lowest eigenvalue and vector); absorb is
the injected fci_obj.absorb_h1e(h1e, eri, nsite, nelec, .5); hdiagE is the
injected electronic diagonal for this (h1e, eri) sector.  The scalar
offset h0 is added to the returned eigenvalue. -/
def kernel (nsite na nb nmode nphMax : ℕ)
    (dav : (CTen na nb nmode → CTen na nb nmode) → CTen na nb nmode →
      (CTen na nb nmode → ℝ → CTen na nb nmode) → ℝ → ℕ → ℝ × CTen na nb nmode)
    (absorb : Mat2 nsite → Mat4 nsite → Mat4 nsite)
    (c1e : C1E nsite na nb) (c2e : C2E nsite na nb)
    (hdiagE : Fin na → Fin nb → ℝ)
    (h1e : Mat2 nsite) (eri : Mat4 nsite) (h1e1p : EPMat nsite nmode)
    (h1p : Mat2 nmode) (tol : ℝ) (maxCycle : ℕ) (ci0 : Option (CTen na nb nmode))
    (h0 : ℝ) (noise : Option ℝ) (r1 : Fin nb → Conf nmode → ℝ)
    (r2 : Fin na → Conf nmode → ℝ) : ℝ × CTen na nb nmode :=
  let c0 : CTen na nb nmode :=
    match ci0 with
    | none => initGuess na nb nmode noise r1 r2
    | some c => c
  let h2e := absorb h1e eri
  let hd := make_hdiag na nb nmode nphMax hdiagE
  let precond : CTen na nb nmode → ℝ → CTen na nb nmode :=
    fun xv e => fun x p => xv x p / (hd x p - e + 1 / 10000)
  let ec := dav (fun v => hop nsite na nb nmode nphMax c1e c2e h2e h1e1p h1p v)
    c0 precond tol maxCycle
  (ec.1 + h0, ec.2)

/-- Modelled from the spec: the external electronic string-counting
capability (pyscf cistring.num_strings), described in the spec as the
"C(nsite, n_alpha)-style combinatorial count" delegated to the electronic
adapter.  The count of strings choosing m electrons among n sites is the
binomial coefficient, which is 0 whenever m is negative or exceeds n. -/
def num_strings (n : ℕ) (m : ℤ) : ℕ :=
  if m < 0 ∨ (n : ℤ) < m then 0 else n.choose m.toNat

/-- Embedding of make_shape (_fci.py lines 12-16): unpack nelec into its
two spin components, count the strings of each spin sector and append
nmode phonon axes of size nph_max + 1.  The source contains no validation
and no raise; it returns this tuple for every input. -/
def make_shape (nsite : ℕ) (nelec : ℤ × ℤ) (nmode nphMax : ℕ) :
    ℕ × ℕ × List ℕ :=
  (num_strings nsite nelec.1, num_strings nsite nelec.2,
    List.replicate nmode (nphMax + 1))

/-- The flattened composite basis vector with amplitude 1 at electronic
pair x0 and phonon configuration p0. -/
def cbasis (na nb nmode : ℕ) (x0 : EIdx na nb) (p0 : Conf nmode) :
    CTen na nb nmode :=
  fun x p => if x = x0 ∧ p = p0 then 1 else 0

/-- The electronic basis column with amplitude 1 at pair y. -/
def ebasis (na nb : ℕ) (y : EIdx na nb) : ECol na nb :=
  fun x => if x = y then 1 else 0

/-- Euclidean inner product of two composite tensors over the truncated
state space (numpy.dot of the raveled vectors): the sum over all
electronic pairs and all phonon configurations inside the box. -/
def dotc (na nb nmode nphMax : ℕ) (u w : CTen na nb nmode) : ℝ :=
  ∑ x : EIdx na nb, ∑ b : Fin nmode → Fin (nphMax + 1),
    u x (fun alph => (b alph : ℕ)) * w x (fun alph => (b alph : ℕ))

/-- Linearity of an injected electronic contraction capability on one
phonon column, as assumed of the external contract_1e / contract_2e. -/
def LinCap (na nb : ℕ) (f : ECol na nb → ECol na nb) : Prop :=
  ∀ (a b : ℝ) (u w : ECol na nb) (x : EIdx na nb),
    f (fun y => a * u y + b * w y) x = a * f u x + b * f w x

/-! Helper lemmas: evaluation of the accumulate folds. -/

/-- A left fold whose every step adds a step-determined increment evaluates
to the initial value plus the sum of the increments. -/
theorem foldl_add_eval {ι A M : Type*} [AddCommMonoid M]
    (F : (A → M) → ι → A → M) (G : ι → A → M)
    (hF : ∀ h i a, F h i a = h a + G i a) :
    ∀ (L : List ι) (h0 : A → M) (a : A),
      (L.foldl F h0) a = h0 a + (L.map fun i => G i a).sum := by
  intro L
  induction L with
  | nil => intro h0 a; simp
  | cons i L ih =>
      intro h0 a
      rw [List.foldl_cons, ih (F h0 i) a, hF h0 i a, List.map_cons,
        List.sum_cons, add_assoc]

/-- The sum of a function mapped over List.range is the Finset.range sum. -/
theorem list_range_map_sum {M : Type*} [AddCommMonoid M] (n : ℕ) (f : ℕ → M) :
    ((List.range n).map f).sum = ∑ i ∈ Finset.range n, f i := by
  induction n with
  | zero => simp
  | succ k ih => rw [List.range_succ]; simp [ih, Finset.sum_range_succ]

/-- The sum of a function mapped over List.finRange is the universe sum. -/
theorem list_finRange_map_sum {M : Type*} [AddCommMonoid M] (n : ℕ)
    (f : Fin n → M) : ((List.finRange n).map f).sum = ∑ i : Fin n, f i := by
  rw [Fin.sum_univ_def]

/-- Collapsing a range sum gated on k = nph. -/
theorem sum_range_if_eq (m k : ℕ) (A : ℕ → ℝ) :
    (∑ nph ∈ Finset.range m, if k = nph then A nph else 0) =
      if k < m then A k else 0 := by
  rw [Finset.sum_ite_eq]
  simp

/-- Collapsing a range sum gated on k = nph + 1. -/
theorem sum_range_if_succ (m k : ℕ) (A : ℕ → ℝ) :
    (∑ nph ∈ Finset.range m, if k = nph + 1 then A nph else 0) =
      if 1 ≤ k ∧ k ≤ m then A (k - 1) else 0 := by
  cases k with
  | zero => simp
  | succ j =>
      have hgate : ∀ nph, (j + 1 = nph + 1) = (j = nph) := by
        intro nph
        simp
      simp only [hgate]
      rw [sum_range_if_eq]
      simp [Nat.lt_iff_add_one_le]

/-- Pointwise value of the lowered tensor t1: the slice of mode alph at
occupation n carries sqrt(n+1) times the input slice at occupation n+1,
for n up to nph_max - 1, and every other entry is zero. -/
theorem ph_t1_apply (na nb nmode nphMax : ℕ) (v : CTen na nb nmode)
    (alph : Fin nmode) (x : EIdx na nb) (p : Conf nmode) :
    ph_t1 na nb nmode nphMax v alph x p =
      if p alph < nphMax then
        v x (Function.update p alph (p alph + 1)) * factor (p alph)
      else 0 := by
  have h := foldl_add_eval
    (fun (t : CTen na nb nmode) (nph : ℕ) => fun x p =>
      t x p +
        (if p alph = nph then
          v x (Function.update p alph (nph + 1)) * factor nph
        else 0))
    (fun (nph : ℕ) (a : EIdx na nb) => fun q =>
      (if q alph = nph then
        v a (Function.update q alph (nph + 1)) * factor nph
      else 0))
    (fun h2 i b => rfl)
    (List.range nphMax) (fun _ _ => 0) x
  unfold ph_t1
  rw [congrFun h p]
  simp only [Pi.add_apply, list_range_map_sum]
  rw [Finset.sum_apply]
  simp only [zero_add]
  exact sum_range_if_eq nphMax (p alph)
    (fun nph => v x (Function.update p alph (nph + 1)) * factor nph)

/-- Pointwise value of contract_h1e1p as a double sum over modes and loop
occupation levels, one summand per slice update of the source loops. -/
theorem contract_h1e1p_apply (nsite na nb nmode nphMax : ℕ)
    (c1e : C1E nsite na nb) (h1e1p : EPMat nsite nmode)
    (v : CTen na nb nmode) (x : EIdx na nb) (p : Conf nmode) :
    contract_h1e1p nsite na nb nmode nphMax c1e h1e1p v x p =
      ∑ alph : Fin nmode, ∑ nph ∈ Finset.range nphMax,
        ((if p alph = nph + 1 then
            hcE_of nsite na nb nmode c1e h1e1p v alph x
              (Function.update p alph nph) * factor nph
          else 0) +
         (if p alph = nph then
            hcE_of nsite na nb nmode c1e h1e1p v alph x
              (Function.update p alph (nph + 1)) * factor nph
          else 0)) := by
  have h := foldl_add_eval
    (fun (hc : CTen na nb nmode) (alph : Fin nmode) =>
      (List.range nphMax).foldl
        (fun hc2 nph => fun x p =>
          hc2 x p +
            ((if p alph = nph + 1 then
                hcE_of nsite na nb nmode c1e h1e1p v alph x
                  (Function.update p alph nph) * factor nph
              else 0) +
             (if p alph = nph then
                hcE_of nsite na nb nmode c1e h1e1p v alph x
                  (Function.update p alph (nph + 1)) * factor nph
              else 0)))
        hc)
    (fun (alph : Fin nmode) (a : EIdx na nb) =>
      ((List.range nphMax).map (fun nph => fun q =>
        ((if q alph = nph + 1 then
            hcE_of nsite na nb nmode c1e h1e1p v alph a
              (Function.update q alph nph) * factor nph
          else 0) +
         (if q alph = nph then
            hcE_of nsite na nb nmode c1e h1e1p v alph a
              (Function.update q alph (nph + 1)) * factor nph
          else 0)))).sum)
    (fun hc alph a =>
      foldl_add_eval _ _ (fun h2 i b => rfl) (List.range nphMax) hc a)
    (List.finRange nmode) (fun _ _ => 0) x
  unfold contract_h1e1p
  rw [congrFun h p]
  simp only [Pi.add_apply, list_finRange_map_sum]
  rw [Finset.sum_apply]
  simp only [zero_add]
  refine Finset.sum_congr rfl (fun alph _ => ?_)
  rw [list_range_map_sum, Finset.sum_apply]

/-- Pointwise value of the raising pass of contract_h1p as a double sum
over modes and loop occupation levels. -/
theorem contract_h1p_apply (na nb nmode nphMax : ℕ) (h1p : Mat2 nmode)
    (v : CTen na nb nmode) (x : EIdx na nb) (p : Conf nmode) :
    contract_h1p na nb nmode nphMax h1p v x p =
      ∑ alph : Fin nmode, ∑ nph ∈ Finset.range nphMax,
        (if p alph = nph + 1 then
          ph_t1_mix na nb nmode nphMax h1p v alph x
            (Function.update p alph nph) * factor nph
        else 0) := by
  have h := foldl_add_eval
    (fun (hc : CTen na nb nmode) (alph : Fin nmode) =>
      (List.range nphMax).foldl
        (fun hc2 nph => fun x p =>
          hc2 x p +
            (if p alph = nph + 1 then
              ph_t1_mix na nb nmode nphMax h1p v alph x
                (Function.update p alph nph) * factor nph
            else 0))
        hc)
    (fun (alph : Fin nmode) (a : EIdx na nb) =>
      ((List.range nphMax).map (fun nph => fun q =>
        (if q alph = nph + 1 then
          ph_t1_mix na nb nmode nphMax h1p v alph a
            (Function.update q alph nph) * factor nph
        else 0))).sum)
    (fun hc alph a =>
      foldl_add_eval _ _ (fun h2 i b => rfl) (List.range nphMax) hc a)
    (List.finRange nmode) (fun _ _ => 0) x
  unfold contract_h1p
  rw [congrFun h p]
  simp only [Pi.add_apply, list_finRange_map_sum]
  rw [Finset.sum_apply]
  simp only [zero_add]
  refine Finset.sum_congr rfl (fun alph _ => ?_)
  rw [list_range_map_sum, Finset.sum_apply]

/-- Pointwise value of make_hdiag: the hstack-scrambled electronic
diagonal plus the per-mode occupation penalty. -/
theorem make_hdiag_apply (na nb nmode nphMax : ℕ)
    (hdiagE : Fin na → Fin nb → ℝ) (x : EIdx na nb) (p : Conf nmode) :
    make_hdiag na nb nmode nphMax hdiagE x p =
      hdiagE x.1 (scrCol nphMax x.2 p) +
        ∑ alph : Fin nmode,
          (if p alph < nphMax + 1 then ((p alph : ℝ) + 1) else 0) := by
  have h := foldl_add_eval
    (fun (hd : CTen na nb nmode) (alph : Fin nmode) =>
      (List.range (nphMax + 1)).foldl
        (fun hd2 nph => fun x p =>
          hd2 x p + (if p alph = nph then ((nph : ℝ) + 1) else 0))
        hd)
    (fun (alph : Fin nmode) (a : EIdx na nb) =>
      ((List.range (nphMax + 1)).map (fun (nph : ℕ) => fun (q : Conf nmode) =>
        (if q alph = nph then ((nph : ℝ) + 1) else 0))).sum)
    (fun hd alph a =>
      foldl_add_eval _ _ (fun h2 i b => rfl) (List.range (nphMax + 1)) hd a)
    (List.finRange nmode) (fun x p => hdiagE x.1 (scrCol nphMax x.2 p)) x
  unfold make_hdiag
  rw [congrFun h p]
  simp only [Pi.add_apply, list_finRange_map_sum]
  rw [Finset.sum_apply]
  refine congrArg (fun r => hdiagE x.1 (scrCol nphMax x.2 p) + r) ?_
  refine Finset.sum_congr rfl (fun alph _ => ?_)
  rw [list_range_map_sum, Finset.sum_apply]
  exact sum_range_if_eq (nphMax + 1) (p alph) (fun nph => ((nph : ℝ) + 1))

/-- Collapsed closed form of contract_h1e1p: at a fixed configuration the
loop sums reduce to one creation-sourced and one annihilation-sourced term
per mode. -/
theorem contract_h1e1p_closed (nsite na nb nmode nphMax : ℕ)
    (c1e : C1E nsite na nb) (h1e1p : EPMat nsite nmode)
    (v : CTen na nb nmode) (x : EIdx na nb) (p : Conf nmode) :
    contract_h1e1p nsite na nb nmode nphMax c1e h1e1p v x p =
      ∑ alph : Fin nmode,
        ((if 1 ≤ p alph ∧ p alph ≤ nphMax then
            hcE_of nsite na nb nmode c1e h1e1p v alph x
              (Function.update p alph (p alph - 1)) * factor (p alph - 1)
          else 0) +
         (if p alph < nphMax then
            hcE_of nsite na nb nmode c1e h1e1p v alph x
              (Function.update p alph (p alph + 1)) * factor (p alph)
          else 0)) := by
  rw [contract_h1e1p_apply]
  refine Finset.sum_congr rfl fun alph _ => ?_
  rw [Finset.sum_add_distrib,
    sum_range_if_succ nphMax (p alph)
      (fun nph => hcE_of nsite na nb nmode c1e h1e1p v alph x
        (Function.update p alph nph) * factor nph),
    sum_range_if_eq nphMax (p alph)
      (fun nph => hcE_of nsite na nb nmode c1e h1e1p v alph x
        (Function.update p alph (nph + 1)) * factor nph)]

/-- Collapsed closed form of contract_h1p: one raising term per mode. -/
theorem contract_h1p_closed (na nb nmode nphMax : ℕ) (h1p : Mat2 nmode)
    (v : CTen na nb nmode) (x : EIdx na nb) (p : Conf nmode) :
    contract_h1p na nb nmode nphMax h1p v x p =
      ∑ alph : Fin nmode,
        (if 1 ≤ p alph ∧ p alph ≤ nphMax then
          ph_t1_mix na nb nmode nphMax h1p v alph x
            (Function.update p alph (p alph - 1)) * factor (p alph - 1)
        else 0) := by
  rw [contract_h1p_apply]
  refine Finset.sum_congr rfl fun alph _ => ?_
  rw [sum_range_if_succ nphMax (p alph)
    (fun nph => ph_t1_mix na nb nmode nphMax h1p v alph x
      (Function.update p alph nph) * factor nph)]

/-- The ladder factor indexed one below, rewritten as a square root of the
occupation number itself. -/
theorem factor_pred (k : ℕ) (hk : 1 ≤ k) :
    factor (k - 1) = Real.sqrt (k : ℝ) := by
  unfold factor
  congr 1
  rw [Nat.cast_sub hk]
  push_cast
  ring

/-- claim C4: contract_h1e1p implements, for each mode alph, the ladder
mixing of the electronically contracted tensor hc_e (contract_1e with
h1e1p[..., alph]): for each occupation level n up to nph_max - 1 with
factor sqrt(n+1), it adds sqrt(n+1) times the hc_e slice at occupation
n+1 into the result slice at occupation n (annihilation) and sqrt(n+1)
times the hc_e slice at n into the result slice at n+1 (creation),
summing all contributions over the modes into an accumulator that starts
at zero.  Stated pointwise: the component at configuration p receives,
from each mode, sqrt(p+1) times hc_e one level up and sqrt(p) times hc_e
one level down, within the truncation gates. -/
theorem claim_C4 (nsite na nb nmode nphMax : ℕ) (c1e : C1E nsite na nb)
    (h1e1p : EPMat nsite nmode) (v : CTen na nb nmode) (x : EIdx na nb)
    (p : Conf nmode) :
    contract_h1e1p nsite na nb nmode nphMax c1e h1e1p v x p =
      ∑ alph : Fin nmode,
        ((if p alph < nphMax then
            Real.sqrt ((p alph : ℝ) + 1) *
              hcE_of nsite na nb nmode c1e h1e1p v alph x
                (Function.update p alph (p alph + 1))
          else 0) +
         (if 1 ≤ p alph ∧ p alph ≤ nphMax then
            Real.sqrt (p alph : ℝ) *
              hcE_of nsite na nb nmode c1e h1e1p v alph x
                (Function.update p alph (p alph - 1))
          else 0)) := by
  rw [contract_h1e1p_closed]
  refine Finset.sum_congr rfl fun alph _ => ?_
  by_cases h1 : 1 ≤ p alph ∧ p alph ≤ nphMax
  · by_cases h2 : p alph < nphMax
    · rw [if_pos h1, if_pos h2, if_pos h1, if_pos h2, factor_pred _ h1.1]
      unfold factor
      ring
    · rw [if_pos h1, if_neg h2, if_pos h1, if_neg h2, factor_pred _ h1.1]
      ring
  · by_cases h2 : p alph < nphMax
    · rw [if_neg h1, if_pos h2, if_neg h1, if_pos h2]
      unfold factor
      ring
    · rw [if_neg h1, if_neg h2, if_neg h1, if_neg h2]

/-- claim C5: contract_h1p computes its result in the three stages of the
source.  (1) The lowered tensor t1[alph] carries, at occupation n below
nph_max, sqrt(n+1) times the input slice at occupation n+1 and is zero
elsewhere.  (2) The mode mixing replaces t1 by the matrix product of h1p
with t1 viewed as an nmode-row matrix.  (3) The raising pass adds, for
each mode and each n below nph_max, sqrt(n+1) times the mixed slice at
occupation n into the result slice at occupation n+1, summed over modes.
Stated pointwise at a configuration p, the result receives sqrt(p) times
the mixed tensor one level down, within the truncation gates. -/
theorem claim_C5 (na nb nmode nphMax : ℕ) (h1p : Mat2 nmode)
    (v : CTen na nb nmode) :
    (∀ (alph : Fin nmode) (x : EIdx na nb) (p : Conf nmode),
      ph_t1 na nb nmode nphMax v alph x p =
        if p alph < nphMax then
          Real.sqrt ((p alph : ℝ) + 1) * v x (Function.update p alph (p alph + 1))
        else 0) ∧
    (∀ (alph : Fin nmode) (x : EIdx na nb) (p : Conf nmode),
      ph_t1_mix na nb nmode nphMax h1p v alph x p =
        ∑ bet : Fin nmode, h1p alph bet * ph_t1 na nb nmode nphMax v bet x p) ∧
    (∀ (x : EIdx na nb) (p : Conf nmode),
      contract_h1p na nb nmode nphMax h1p v x p =
        ∑ alph : Fin nmode,
          if 1 ≤ p alph ∧ p alph ≤ nphMax then
            Real.sqrt (p alph : ℝ) *
              ph_t1_mix na nb nmode nphMax h1p v alph x
                (Function.update p alph (p alph - 1))
          else 0) := by
  refine ⟨fun alph x p => ?_, fun alph x p => rfl, fun x p => ?_⟩
  · rw [ph_t1_apply]
    by_cases h : p alph < nphMax
    · rw [if_pos h, if_pos h]
      unfold factor
      ring
    · rw [if_neg h, if_neg h]
  · rw [contract_h1p_closed]
    refine Finset.sum_congr rfl fun alph _ => ?_
    by_cases h : 1 ≤ p alph ∧ p alph ≤ nphMax
    · rw [if_pos h, if_pos h, factor_pred _ h.1]
      ring
    · rw [if_neg h, if_neg h]

/-- claim C10: with nph_max = 0 (a single occupation level per mode) or
nmode = 0 (no phonon modes), both contract_h1e1p and contract_h1p return
the zero tensor on every input, and hop reduces to the pure electronic
two-body contraction. -/
theorem claim_C10 (nsite na nb nmode nphMax : ℕ) (c1e : C1E nsite na nb)
    (c2e : C2E nsite na nb) (h2e : Mat4 nsite) (h1e1p : EPMat nsite nmode)
    (h1p : Mat2 nmode) (v : CTen na nb nmode)
    (h : nphMax = 0 ∨ nmode = 0) :
    (∀ x p, contract_h1e1p nsite na nb nmode nphMax c1e h1e1p v x p = 0) ∧
    (∀ x p, contract_h1p na nb nmode nphMax h1p v x p = 0) ∧
    (∀ x p, hop nsite na nb nmode nphMax c1e c2e h2e h1e1p h1p v x p =
      contract_h2e nsite na nb nmode c2e h2e v x p) := by
  have hA : ∀ x p, contract_h1e1p nsite na nb nmode nphMax c1e h1e1p v x p = 0 := by
    intro x p
    rw [contract_h1e1p_apply]
    rcases h with h | h
    · subst h; simp
    · subst h; simp
  have hB : ∀ x p, contract_h1p na nb nmode nphMax h1p v x p = 0 := by
    intro x p
    rw [contract_h1p_apply]
    rcases h with h | h
    · subst h; simp
    · subst h; simp
  refine ⟨hA, hB, fun x p => ?_⟩
  unfold hop
  rw [hA x p, hB x p]
  ring

/-- Witness for claim C10 at a concrete instance with nph_max = 0. -/
theorem claim_C10_witness :
    ((0 : ℕ) = 0 ∨ (1 : ℕ) = 0) ∧
    ((∀ x p, contract_h1e1p 1 1 1 1 0 (fun _ c => c) (fun _ _ _ => 1)
        (fun _ _ => 1) x p = 0) ∧
     (∀ x p, contract_h1p 1 1 1 0 (fun _ _ => 1) (fun _ _ => 1) x p = 0) ∧
     (∀ x p, hop 1 1 1 1 0 (fun _ c => c) (fun _ c => c) (fun _ _ _ _ => 1)
        (fun _ _ _ => 1) (fun _ _ => 1) (fun _ _ => 1) x p =
        contract_h2e 1 1 1 1 (fun _ c => c) (fun _ _ _ _ => 1)
          (fun _ _ => 1) x p)) :=
  ⟨Or.inl rfl,
    claim_C10 1 1 1 1 0 (fun _ c => c) (fun _ c => c) (fun _ _ _ _ => 1)
      (fun _ _ _ => 1) (fun _ _ => 1) (fun _ _ => 1) (Or.inl rfl)⟩

/-- claim C3: the operator hop built in kernel is linear: for all composite
vectors v1, v2 and scalars a, b, hop (a*v1 + b*v2) = a*hop v1 + b*hop v2
exactly, assuming the injected electronic contract_1e and contract_2e
capabilities are themselves linear. -/
theorem claim_C3 (nsite na nb nmode nphMax : ℕ) (c1e : C1E nsite na nb)
    (c2e : C2E nsite na nb) (h2e : Mat4 nsite) (h1e1p : EPMat nsite nmode)
    (h1p : Mat2 nmode)
    (hc1 : ∀ m : Mat2 nsite, LinCap na nb (c1e m))
    (hc2 : LinCap na nb (c2e h2e))
    (a b : ℝ) (v1 v2 : CTen na nb nmode) (x : EIdx na nb) (p : Conf nmode) :
    hop nsite na nb nmode nphMax c1e c2e h2e h1e1p h1p
        (fun y q => a * v1 y q + b * v2 y q) x p =
      a * hop nsite na nb nmode nphMax c1e c2e h2e h1e1p h1p v1 x p +
      b * hop nsite na nb nmode nphMax c1e c2e h2e h1e1p h1p v2 x p := by
  have h2 : ∀ (y : EIdx na nb) (q : Conf nmode),
      contract_h2e nsite na nb nmode c2e h2e
          (fun y2 q2 => a * v1 y2 q2 + b * v2 y2 q2) y q =
        a * contract_h2e nsite na nb nmode c2e h2e v1 y q +
        b * contract_h2e nsite na nb nmode c2e h2e v2 y q := by
    intro y q
    exact hc2 a b (fun z => v1 z q) (fun z => v2 z q) y
  have hE : ∀ (alph : Fin nmode) (y : EIdx na nb) (q : Conf nmode),
      hcE_of nsite na nb nmode c1e h1e1p
          (fun y2 q2 => a * v1 y2 q2 + b * v2 y2 q2) alph y q =
        a * hcE_of nsite na nb nmode c1e h1e1p v1 alph y q +
        b * hcE_of nsite na nb nmode c1e h1e1p v2 alph y q := by
    intro alph y q
    exact hc1 _ a b (fun z => v1 z q) (fun z => v2 z q) y
  have h3 : contract_h1e1p nsite na nb nmode nphMax c1e h1e1p
        (fun y2 q2 => a * v1 y2 q2 + b * v2 y2 q2) x p =
      a * contract_h1e1p nsite na nb nmode nphMax c1e h1e1p v1 x p +
      b * contract_h1e1p nsite na nb nmode nphMax c1e h1e1p v2 x p := by
    rw [contract_h1e1p_apply, contract_h1e1p_apply, contract_h1e1p_apply]
    simp only [hE, Finset.mul_sum]
    rw [← Finset.sum_add_distrib]
    refine Finset.sum_congr rfl fun alph _ => ?_
    rw [← Finset.sum_add_distrib]
    refine Finset.sum_congr rfl fun nph _ => ?_
    split_ifs <;> ring
  have ht1 : ∀ (alph : Fin nmode) (y : EIdx na nb) (q : Conf nmode),
      ph_t1 na nb nmode nphMax
          (fun y2 q2 => a * v1 y2 q2 + b * v2 y2 q2) alph y q =
        a * ph_t1 na nb nmode nphMax v1 alph y q +
        b * ph_t1 na nb nmode nphMax v2 alph y q := by
    intro alph y q
    rw [ph_t1_apply, ph_t1_apply, ph_t1_apply]
    split_ifs <;> ring
  have hmix : ∀ (alph : Fin nmode) (y : EIdx na nb) (q : Conf nmode),
      ph_t1_mix na nb nmode nphMax h1p
          (fun y2 q2 => a * v1 y2 q2 + b * v2 y2 q2) alph y q =
        a * ph_t1_mix na nb nmode nphMax h1p v1 alph y q +
        b * ph_t1_mix na nb nmode nphMax h1p v2 alph y q := by
    intro alph y q
    unfold ph_t1_mix
    simp only [ht1, Finset.mul_sum]
    rw [← Finset.sum_add_distrib]
    refine Finset.sum_congr rfl fun bet _ => ?_
    ring
  have h4 : contract_h1p na nb nmode nphMax h1p
        (fun y2 q2 => a * v1 y2 q2 + b * v2 y2 q2) x p =
      a * contract_h1p na nb nmode nphMax h1p v1 x p +
      b * contract_h1p na nb nmode nphMax h1p v2 x p := by
    rw [contract_h1p_apply, contract_h1p_apply, contract_h1p_apply]
    simp only [hmix, Finset.mul_sum]
    rw [← Finset.sum_add_distrib]
    refine Finset.sum_congr rfl fun alph _ => ?_
    rw [← Finset.sum_add_distrib]
    refine Finset.sum_congr rfl fun nph _ => ?_
    split_ifs <;> ring
  unfold hop
  rw [h2 x p, h3, h4]
  ring

/-- Witness for claim C3 at a concrete instance: identity capabilities
(which are linear), scalars 2 and 3, constant input vectors. -/
theorem claim_C3_witness :
    (∀ m : Mat2 1, LinCap 1 1 ((fun (_ : Mat2 1) (c : ECol 1 1) => c) m)) ∧
    LinCap 1 1
      ((fun (_ : Mat4 1) (c : ECol 1 1) => c) (fun _ _ _ _ => 1)) ∧
    hop 1 1 1 1 1 (fun _ c => c) (fun _ c => c) (fun _ _ _ _ => 1)
        (fun _ _ _ => 1) (fun _ _ => 1)
        (fun y q => 2 * (fun (_ : EIdx 1 1) (_ : Conf 1) => (1 : ℝ)) y q +
          3 * (fun (_ : EIdx 1 1) (_ : Conf 1) => (1 : ℝ)) y q)
        (0, 0) (fun _ => 0) =
      2 * hop 1 1 1 1 1 (fun _ c => c) (fun _ c => c) (fun _ _ _ _ => 1)
        (fun _ _ _ => 1) (fun _ _ => 1) (fun _ _ => 1) (0, 0) (fun _ => 0) +
      3 * hop 1 1 1 1 1 (fun _ c => c) (fun _ c => c) (fun _ _ _ _ => 1)
        (fun _ _ _ => 1) (fun _ _ => 1) (fun _ _ => 1) (0, 0) (fun _ => 0) :=
  ⟨fun _ _ _ _ _ _ => rfl, fun _ _ _ _ _ => rfl,
    claim_C3 1 1 1 1 1 (fun _ c => c) (fun _ c => c) (fun _ _ _ _ => 1)
      (fun _ _ _ => 1) (fun _ _ => 1) (fun _ _ _ _ _ _ => rfl)
      (fun _ _ _ _ _ => rfl) 2 3 (fun _ _ => 1) (fun _ _ => 1) (0, 0)
      (fun _ => 0)⟩

/-- Updating one mode of an in-box configuration to an in-range occupation
stays in the box. -/
theorem InBox_update (nphMax : ℕ) {nmode : ℕ} (q : Conf nmode)
    (alph : Fin nmode) (k : ℕ) (hq : InBox nphMax q) (hk : k ≤ nphMax) :
    InBox nphMax (Function.update q alph k) := by
  intro gam
  by_cases h : gam = alph
  · subst h
    rw [Function.update_same]
    exact hk
  · rw [Function.update_noteq h]
    exact hq gam

/-- A configuration outside the box has some mode above nph_max. -/
theorem not_InBox_witness (nphMax : ℕ) {nmode : ℕ} (q : Conf nmode)
    (hq : ¬ InBox nphMax q) : ∃ bet, nphMax < q bet := by
  unfold InBox at hq
  push_neg at hq
  exact hq

/-- claim C6: in contract_h1e1p and contract_h1p every phonon occupation
index read or written stays within [0, nph_max], and no creation
contribution is ever written above occupation nph_max.  Formally: (a) on
an input supported inside the truncation box, both outputs are again
supported inside the box (hard truncation: population above nph_max is
never created); and (b) at a configuration inside the box both outputs
depend only on the input values inside the box (no reads outside it).
The only assumption on the injected contract_1e is that it maps the zero
column to zero. -/
theorem claim_C6 (nsite na nb nmode nphMax : ℕ) (c1e : C1E nsite na nb)
    (h1e1p : EPMat nsite nmode) (h1p : Mat2 nmode)
    (hz : ∀ (m : Mat2 nsite) (y : EIdx na nb), c1e m (fun _ => 0) y = 0) :
    (∀ v : CTen na nb nmode, SuppIn na nb nmode nphMax v →
      SuppIn na nb nmode nphMax
          (contract_h1e1p nsite na nb nmode nphMax c1e h1e1p v) ∧
      SuppIn na nb nmode nphMax (contract_h1p na nb nmode nphMax h1p v)) ∧
    (∀ v w : CTen na nb nmode, (∀ y q, InBox nphMax q → v y q = w y q) →
      ∀ y q, InBox nphMax q →
        contract_h1e1p nsite na nb nmode nphMax c1e h1e1p v y q =
          contract_h1e1p nsite na nb nmode nphMax c1e h1e1p w y q ∧
        contract_h1p na nb nmode nphMax h1p v y q =
          contract_h1p na nb nmode nphMax h1p w y q) := by
  have ht1supp : ∀ v : CTen na nb nmode, SuppIn na nb nmode nphMax v →
      ∀ (alph : Fin nmode) (y : EIdx na nb) (q : Conf nmode),
        ¬ InBox nphMax q → ph_t1 na nb nmode nphMax v alph y q = 0 := by
    intro v hv alph y q hq
    rw [ph_t1_apply]
    by_cases h : q alph < nphMax
    · rw [if_pos h]
      obtain ⟨bet, hbet⟩ := not_InBox_witness nphMax q hq
      have hba : bet ≠ alph := by
        intro he
        rw [he] at hbet
        exact absurd hbet (not_lt.mpr (le_of_lt h))
      have hnb : ¬ InBox nphMax (Function.update q alph (q alph + 1)) := by
        intro hbox
        have hb := hbox bet
        rw [Function.update_noteq hba] at hb
        exact absurd hbet (not_lt.mpr hb)
      rw [hv y _ hnb, zero_mul]
    · rw [if_neg h]
  have hmixsupp : ∀ v : CTen na nb nmode, SuppIn na nb nmode nphMax v →
      ∀ (alph : Fin nmode) (y : EIdx na nb) (q : Conf nmode),
        ¬ InBox nphMax q → ph_t1_mix na nb nmode nphMax h1p v alph y q = 0 := by
    intro v hv alph y q hq
    unfold ph_t1_mix
    refine Finset.sum_eq_zero fun bet _ => ?_
    rw [ht1supp v hv bet y q hq, mul_zero]
  have hsupp1 : ∀ v : CTen na nb nmode, SuppIn na nb nmode nphMax v →
      SuppIn na nb nmode nphMax
        (contract_h1e1p nsite na nb nmode nphMax c1e h1e1p v) := by
    intro v hv y q hq
    rw [contract_h1e1p_closed]
    refine Finset.sum_eq_zero fun alph _ => ?_
    obtain ⟨bet, hbet⟩ := not_InBox_witness nphMax q hq
    have hterm1 :
        (if 1 ≤ q alph ∧ q alph ≤ nphMax then
          hcE_of nsite na nb nmode c1e h1e1p v alph y
            (Function.update q alph (q alph - 1)) * factor (q alph - 1)
        else 0) = 0 := by
      by_cases h1 : 1 ≤ q alph ∧ q alph ≤ nphMax
      · rw [if_pos h1]
        have hba : bet ≠ alph := by
          intro he
          rw [he] at hbet
          exact absurd h1.2 (not_le.mpr hbet)
        have hnb : ¬ InBox nphMax (Function.update q alph (q alph - 1)) := by
          intro hbox
          have hb := hbox bet
          rw [Function.update_noteq hba] at hb
          exact absurd hbet (not_lt.mpr hb)
        have hcol : (fun z => v z (Function.update q alph (q alph - 1))) =
            fun _ => (0 : ℝ) := funext fun z => hv z _ hnb
        unfold hcE_of
        rw [hcol, hz, zero_mul]
      · rw [if_neg h1]
    have hterm2 :
        (if q alph < nphMax then
          hcE_of nsite na nb nmode c1e h1e1p v alph y
            (Function.update q alph (q alph + 1)) * factor (q alph)
        else 0) = 0 := by
      by_cases h2 : q alph < nphMax
      · rw [if_pos h2]
        have hba : bet ≠ alph := by
          intro he
          rw [he] at hbet
          exact absurd hbet (not_lt.mpr (le_of_lt h2))
        have hnb : ¬ InBox nphMax (Function.update q alph (q alph + 1)) := by
          intro hbox
          have hb := hbox bet
          rw [Function.update_noteq hba] at hb
          exact absurd hbet (not_lt.mpr hb)
        have hcol : (fun z => v z (Function.update q alph (q alph + 1))) =
            fun _ => (0 : ℝ) := funext fun z => hv z _ hnb
        unfold hcE_of
        rw [hcol, hz, zero_mul]
      · rw [if_neg h2]
    rw [hterm1, hterm2, add_zero]
  have hsupp2 : ∀ v : CTen na nb nmode, SuppIn na nb nmode nphMax v →
      SuppIn na nb nmode nphMax (contract_h1p na nb nmode nphMax h1p v) := by
    intro v hv y q hq
    rw [contract_h1p_closed]
    refine Finset.sum_eq_zero fun alph _ => ?_
    by_cases h1 : 1 ≤ q alph ∧ q alph ≤ nphMax
    · rw [if_pos h1]
      obtain ⟨bet, hbet⟩ := not_InBox_witness nphMax q hq
      have hba : bet ≠ alph := by
        intro he
        rw [he] at hbet
        exact absurd h1.2 (not_le.mpr hbet)
      have hnb : ¬ InBox nphMax (Function.update q alph (q alph - 1)) := by
        intro hbox
        have hb := hbox bet
        rw [Function.update_noteq hba] at hb
        exact absurd hbet (not_lt.mpr hb)
      rw [hmixsupp v hv alph y _ hnb, zero_mul]
    · rw [if_neg h1]
  refine ⟨fun v hv => ⟨hsupp1 v hv, hsupp2 v hv⟩, fun v w hag y q hbox => ?_⟩
  have ht1ag : ∀ (alph : Fin nmode) (z : EIdx na nb) (r : Conf nmode),
      InBox nphMax r →
      ph_t1 na nb nmode nphMax v alph z r =
        ph_t1 na nb nmode nphMax w alph z r := by
    intro alph z r hr
    rw [ph_t1_apply, ph_t1_apply]
    by_cases h : r alph < nphMax
    · rw [if_pos h, if_pos h,
        hag z _ (InBox_update nphMax r alph _ hr (Nat.succ_le_of_lt h))]
    · rw [if_neg h, if_neg h]
  have hmixag : ∀ (alph : Fin nmode) (z : EIdx na nb) (r : Conf nmode),
      InBox nphMax r →
      ph_t1_mix na nb nmode nphMax h1p v alph z r =
        ph_t1_mix na nb nmode nphMax h1p w alph z r := by
    intro alph z r hr
    unfold ph_t1_mix
    refine Finset.sum_congr rfl fun bet _ => ?_
    rw [ht1ag bet z r hr]
  constructor
  · rw [contract_h1e1p_closed, contract_h1e1p_closed]
    refine Finset.sum_congr rfl fun alph _ => ?_
    have e1 :
        (if 1 ≤ q alph ∧ q alph ≤ nphMax then
          hcE_of nsite na nb nmode c1e h1e1p v alph y
            (Function.update q alph (q alph - 1)) * factor (q alph - 1)
        else 0) =
        (if 1 ≤ q alph ∧ q alph ≤ nphMax then
          hcE_of nsite na nb nmode c1e h1e1p w alph y
            (Function.update q alph (q alph - 1)) * factor (q alph - 1)
        else 0) := by
      by_cases h1 : 1 ≤ q alph ∧ q alph ≤ nphMax
      · rw [if_pos h1, if_pos h1]
        have hcfg : InBox nphMax (Function.update q alph (q alph - 1)) :=
          InBox_update nphMax q alph _ hbox
            (le_trans (Nat.sub_le _ _) (hbox alph))
        have hcol : (fun z => v z (Function.update q alph (q alph - 1))) =
            fun z => w z (Function.update q alph (q alph - 1)) :=
          funext fun z => hag z _ hcfg
        unfold hcE_of
        rw [hcol]
      · rw [if_neg h1, if_neg h1]
    have e2 :
        (if q alph < nphMax then
          hcE_of nsite na nb nmode c1e h1e1p v alph y
            (Function.update q alph (q alph + 1)) * factor (q alph)
        else 0) =
        (if q alph < nphMax then
          hcE_of nsite na nb nmode c1e h1e1p w alph y
            (Function.update q alph (q alph + 1)) * factor (q alph)
        else 0) := by
      by_cases h2 : q alph < nphMax
      · rw [if_pos h2, if_pos h2]
        have hcfg : InBox nphMax (Function.update q alph (q alph + 1)) :=
          InBox_update nphMax q alph _ hbox (Nat.succ_le_of_lt h2)
        have hcol : (fun z => v z (Function.update q alph (q alph + 1))) =
            fun z => w z (Function.update q alph (q alph + 1)) :=
          funext fun z => hag z _ hcfg
        unfold hcE_of
        rw [hcol]
      · rw [if_neg h2, if_neg h2]
    rw [e1, e2]
  · rw [contract_h1p_closed, contract_h1p_closed]
    refine Finset.sum_congr rfl fun alph _ => ?_
    by_cases h1 : 1 ≤ q alph ∧ q alph ≤ nphMax
    · rw [if_pos h1, if_pos h1,
        hmixag alph y _ (InBox_update nphMax q alph _ hbox
          (le_trans (Nat.sub_le _ _) (hbox alph)))]
    · rw [if_neg h1, if_neg h1]

/-- Witness for claim C6 at a concrete instance: the identity contract_1e
capability (which maps the zero column to zero). -/
theorem claim_C6_witness :
    (∀ (m : Mat2 1) (y : EIdx 1 1),
      (fun (_ : Mat2 1) (c : ECol 1 1) => c) m (fun _ => 0) y = 0) ∧
    ((∀ v : CTen 1 1 1, SuppIn 1 1 1 1 v →
      SuppIn 1 1 1 1
          (contract_h1e1p 1 1 1 1 1 (fun _ c => c) (fun _ _ _ => 1) v) ∧
      SuppIn 1 1 1 1 (contract_h1p 1 1 1 1 (fun _ _ => 1) v)) ∧
    (∀ v w : CTen 1 1 1, (∀ y q, InBox 1 q → v y q = w y q) →
      ∀ y q, InBox 1 q →
        contract_h1e1p 1 1 1 1 1 (fun _ c => c) (fun _ _ _ => 1) v y q =
          contract_h1e1p 1 1 1 1 1 (fun _ c => c) (fun _ _ _ => 1) w y q ∧
        contract_h1p 1 1 1 1 (fun _ _ => 1) v y q =
          contract_h1p 1 1 1 1 (fun _ _ => 1) w y q)) :=
  ⟨fun _ _ => rfl,
    claim_C6 1 1 1 1 1 (fun _ c => c) (fun _ _ _ => 1) (fun _ _ => 1)
      (fun _ _ => rfl)⟩

/-- claim C7 (amended): when ci0 is None the initial guess is the zero
tensor with amplitude 1.0 at the reference configuration (electronic
string pair (0,0), all phonon occupations 0); when noise is given, the
random perturbation is applied to exactly the two ELECTRONIC slices --
alpha-string index 0 (all beta strings, all phonon configurations) and
beta-string index 0 (all alpha strings, all phonon configurations) --
and every entry with both electronic indices nonzero keeps its
deterministic value.  The slices are not phonon-occupation slices: they
extend over every phonon configuration. -/
theorem claim_C7 (na nb nmode : ℕ) (eps : ℝ) (r1 : Fin nb → Conf nmode → ℝ)
    (r2 : Fin na → Conf nmode → ℝ) (x : EIdx na nb) (p : Conf nmode) :
    initGuess na nb nmode none r1 r2 x p =
      (if (x.1 : ℕ) = 0 ∧ (x.2 : ℕ) = 0 ∧ p = zeroConf nmode then 1 else 0) ∧
    initGuess na nb nmode (some eps) r1 r2 x p =
      (if (x.1 : ℕ) = 0 ∧ (x.2 : ℕ) = 0 ∧ p = zeroConf nmode then 1 else 0) +
        (if (x.1 : ℕ) = 0 then r1 x.2 p * eps else 0) +
        (if (x.2 : ℕ) = 0 then r2 x.1 p * eps else 0) := by
  constructor
  · rfl
  · show ci0_noise2 na nb nmode eps r1 r2 x p = _
    unfold ci0_noise2 ci0_noise1 ci0_ref
    split_ifs <;> ring

/-- Counterexample to claim C7 as stated: in a box with nph_max = 1 and
one mode, the entry at electronic pair (0, 1) and the TOP phonon
configuration (occupation 1 = nph_max in the only mode, which lies in no
low-phonon-occupation slice) is perturbed away from its deterministic
value 0 to the value noise * rand = 1: the perturbed slices are
electronic-index slices covering every phonon configuration, not
low-phonon-occupation slices. -/
theorem claim_C7_cex :
    initGuess 2 2 1 (some 1) (fun _ _ => 1) (fun _ _ => 1) (0, 1)
        (fun _ => 1) = 1 ∧
    initGuess 2 2 1 none (fun _ _ => 1) (fun _ _ => 1) (0, 1)
        (fun _ => 1) = 0 := by
  constructor
  · show ci0_noise2 2 2 1 1 (fun _ _ => 1) (fun _ _ => 1) (0, 1)
        (fun _ => 1) = 1
    unfold ci0_noise2 ci0_noise1 ci0_ref
    norm_num
  · show ci0_ref 2 2 1 (0, 1) (fun _ => 1) = 0
    unfold ci0_ref
    norm_num

/-- claim C8 (amended): make_shape raises no error for out-of-range nelec
components; whenever a component is negative or exceeds nsite, the
corresponding electronic dimension of the returned shape tuple is 0 (the
out-of-range binomial string count), making the composite space empty. -/
theorem claim_C8 (nsite : ℕ) (nelec : ℤ × ℤ) (nmode nphMax : ℕ)
    (h : nelec.1 < 0 ∨ (nsite : ℤ) < nelec.1 ∨ nelec.2 < 0 ∨
      (nsite : ℤ) < nelec.2) :
    (make_shape nsite nelec nmode nphMax).1 = 0 ∨
    (make_shape nsite nelec nmode nphMax).2.1 = 0 := by
  rcases h with h | h | h | h
  · left
    show num_strings nsite nelec.1 = 0
    unfold num_strings
    rw [if_pos (Or.inl h)]
  · left
    show num_strings nsite nelec.1 = 0
    unfold num_strings
    rw [if_pos (Or.inr h)]
  · right
    show num_strings nsite nelec.2 = 0
    unfold num_strings
    rw [if_pos (Or.inl h)]
  · right
    show num_strings nsite nelec.2 = 0
    unfold num_strings
    rw [if_pos (Or.inr h)]

/-- Witness for claim C8 at the concrete out-of-range input nsite = 2,
nelec = (3, 0). -/
theorem claim_C8_witness :
    ((3 : ℤ) < 0 ∨ (2 : ℤ) < 3 ∨ (0 : ℤ) < 0 ∨ (2 : ℤ) < 0) ∧
    ((make_shape 2 (3, 0) 1 1).1 = 0 ∨ (make_shape 2 (3, 0) 1 1).2.1 = 0) :=
  ⟨by norm_num, claim_C8 2 (3, 0) 1 1 (by norm_num)⟩

/-- Counterexample to claim C8 as stated: make_shape does return a normal
shape tuple on an out-of-range nelec.  At nsite = 2 with nelec = (3, 0)
(first component exceeds nsite) it returns (0, 1, [2]): no ShapeError is
raised anywhere in its body. -/
theorem claim_C8_cex : make_shape 2 (3, 0) 1 1 = (0, 1, [2]) := by
  unfold make_shape num_strings
  norm_num

/-- claim C9: kernel is deterministic when given an explicit initial
guess: with ci0 = some v the random source and the noise parameter are
never consulted (they only serve to build a missing initial guess), so
the returned eigenvalue and vector are identical across two runs with
identical remaining arguments --- all injected capabilities being
functions, i.e. deterministic, as the claim assumes. -/
theorem claim_C9 (nsite na nb nmode nphMax : ℕ)
    (dav : (CTen na nb nmode → CTen na nb nmode) → CTen na nb nmode →
      (CTen na nb nmode → ℝ → CTen na nb nmode) → ℝ → ℕ →
      ℝ × CTen na nb nmode)
    (absorb : Mat2 nsite → Mat4 nsite → Mat4 nsite)
    (c1e : C1E nsite na nb) (c2e : C2E nsite na nb)
    (hdiagE : Fin na → Fin nb → ℝ) (h1e : Mat2 nsite) (eri : Mat4 nsite)
    (h1e1p : EPMat nsite nmode) (h1p : Mat2 nmode) (tol : ℝ)
    (maxCycle : ℕ) (v : CTen na nb nmode) (h0 : ℝ)
    (noise1 noise2 : Option ℝ) (r1 r1x : Fin nb → Conf nmode → ℝ)
    (r2 r2x : Fin na → Conf nmode → ℝ) :
    kernel nsite na nb nmode nphMax dav absorb c1e c2e hdiagE h1e eri
        h1e1p h1p tol maxCycle (some v) h0 noise1 r1 r2 =
      kernel nsite na nb nmode nphMax dav absorb c1e c2e hdiagE h1e eri
        h1e1p h1p tol maxCycle (some v) h0 noise2 r1x r2x := rfl

/-- claim C1 (code bug): the electronic diagonal is NOT broadcast
identically across the phonon configurations.  At na = 1, nb = 2,
nmode = 1, nph_max = 1 with hdiag_e = [[0, 1]], the composite entry at
electronic pair (0, 0) and phonon occupation 1 evaluates to
hdiag_e[0][1] + 2 = 3, whereas the claimed broadcast value is
hdiag_e[0][0] + 2 = 2: numpy.hstack lays the copies of hdiag_e along the
beta-string axis, so the reshape to the composite shape mixes that axis
with the phonon axes whenever nb > 1 and (nph_max+1)^nmode > 1. -/
theorem claim_C1_eval :
    make_hdiag 1 2 1 1 (fun _ j => ((j : ℕ) : ℝ)) (0, 0) (fun _ => 1) = 3 ∧
    (fun (_ : Fin 1) (j : Fin 2) => ((j : ℕ) : ℝ)) 0 0 + ((1 : ℝ) + 1) = 2 ∧
    (3 : ℝ) ≠ 2 := by
  refine ⟨?_, by norm_num, by norm_num⟩
  rw [make_hdiag_apply]
  have hscr : scrCol 1 ((0, 0) : EIdx 1 2).2 (fun _ : Fin 1 => 1) =
      (1 : Fin 2) := by
    apply Fin.ext
    unfold scrCol pidx
    simp
  rw [hscr]
  simp [Fin.sum_univ_one]
  norm_num

/-- The inner product against a composite basis vector inside the box
picks out the corresponding component. -/
theorem dotc_cbasis (na nb nmode nphMax : ℕ) (x0 : EIdx na nb)
    (p0 : Conf nmode) (hbox : InBox nphMax p0) (w : CTen na nb nmode) :
    dotc na nb nmode nphMax (cbasis na nb nmode x0 p0) w = w x0 p0 := by
  have hb0 : ∀ alph, p0 alph < nphMax + 1 :=
    fun alph => Nat.lt_succ_of_le (hbox alph)
  have hcond : ∀ (x : EIdx na nb) (b : Fin nmode → Fin (nphMax + 1)),
      (x = x0 ∧ (fun alph => ((b alph : ℕ))) = p0) ↔
        (x = x0 ∧ b = fun alph => (⟨p0 alph, hb0 alph⟩ : Fin (nphMax + 1))) := by
    intro x b
    constructor
    · rintro ⟨hx, hb⟩
      exact ⟨hx, funext fun alph => Fin.ext (congrFun hb alph)⟩
    · rintro ⟨hx, hb⟩
      subst hb
      exact ⟨hx, funext fun alph => rfl⟩
  unfold dotc cbasis
  simp only [hcond, ite_mul, one_mul, zero_mul]
  rw [Finset.sum_eq_single x0
    (fun x _ hx => Finset.sum_eq_zero fun b _ => by
      rw [if_neg]
      intro hc
      exact hx hc.1)
    (fun hmem => absurd (Finset.mem_univ x0) hmem)]
  simp only [eq_self_iff_true, true_and]
  rw [Finset.sum_ite_eq' Finset.univ
    (fun alph => (⟨p0 alph, hb0 alph⟩ : Fin (nphMax + 1)))
    (fun b => w x0 (fun alph => (b alph : ℕ)))]
  simp only [Finset.mem_univ, if_pos]

/-- The phonon-phonon contraction of a composite basis vector, evaluated
at that same basis configuration inside the box, is the sum of the mode
energies h1p[alph][alph] times the occupation numbers. -/
theorem contract_h1p_cbasis (na nb nmode nphMax : ℕ) (h1p : Mat2 nmode)
    (x0 : EIdx na nb) (p0 : Conf nmode) (hbox : InBox nphMax p0) :
    contract_h1p na nb nmode nphMax h1p (cbasis na nb nmode x0 p0) x0 p0 =
      ∑ alph : Fin nmode, h1p alph alph * (p0 alph : ℝ) := by
  rw [contract_h1p_closed]
  refine Finset.sum_congr rfl fun alph _ => ?_
  by_cases h1 : 1 ≤ p0 alph ∧ p0 alph ≤ nphMax
  · rw [if_pos h1]
    have hlt : p0 alph - 1 < nphMax :=
      lt_of_lt_of_le (Nat.sub_lt (lt_of_lt_of_le one_pos h1.1) one_pos) h1.2
    have hmain : ph_t1 na nb nmode nphMax (cbasis na nb nmode x0 p0) alph x0
        (Function.update p0 alph (p0 alph - 1)) = factor (p0 alph - 1) := by
      rw [ph_t1_apply]
      rw [Function.update_same]
      rw [if_pos hlt]
      have hcfg : Function.update (Function.update p0 alph (p0 alph - 1)) alph
          (p0 alph - 1 + 1) = p0 := by
        rw [Function.update_idem, Nat.sub_add_cancel h1.1,
          Function.update_eq_self]
      rw [hcfg]
      unfold cbasis
      rw [if_pos ⟨rfl, rfl⟩, one_mul]
    have hside : ∀ bet : Fin nmode, bet ≠ alph →
        ph_t1 na nb nmode nphMax (cbasis na nb nmode x0 p0) bet x0
          (Function.update p0 alph (p0 alph - 1)) = 0 := by
      intro bet hbet
      rw [ph_t1_apply]
      by_cases h2 : Function.update p0 alph (p0 alph - 1) bet < nphMax
      · rw [if_pos h2]
        have hne : Function.update (Function.update p0 alph (p0 alph - 1)) bet
            (Function.update p0 alph (p0 alph - 1) bet + 1) ≠ p0 := by
          intro heq
          have hc := congrFun heq bet
          rw [Function.update_same] at hc
          rw [Function.update_noteq hbet] at hc
          exact Nat.succ_ne_self (p0 bet) hc
        unfold cbasis
        rw [if_neg (fun hc => hne hc.2), zero_mul]
      · rw [if_neg h2]
    have hmix : ph_t1_mix na nb nmode nphMax h1p (cbasis na nb nmode x0 p0)
        alph x0 (Function.update p0 alph (p0 alph - 1)) =
        h1p alph alph * factor (p0 alph - 1) := by
      unfold ph_t1_mix
      rw [Finset.sum_eq_single alph
        (fun bet _ hbet => by rw [hside bet hbet, mul_zero])
        (fun hmem => absurd (Finset.mem_univ alph) hmem)]
      rw [hmain]
    rw [hmix, factor_pred _ h1.1, mul_assoc,
      Real.mul_self_sqrt (Nat.cast_nonneg _)]
  · rw [if_neg h1]
    have h0 : p0 alph = 0 := by
      by_contra hne
      exact h1 ⟨Nat.one_le_iff_ne_zero.mpr hne, hbox alph⟩
    rw [h0]
    norm_num

/-- claim C2 (amended): when h1e1p is identically zero (and the injected
contract_1e maps the zero one-body matrix to the zero operator, while the
injected electronic make_hdiag is consistent with the diagonal of
contract_2e), the make_hdiag entry at electronic pair x0 and phonon
configuration p0 equals dot(e_i, hop(e_i)) CORRECTED by two terms the
code forces: the true phonon diagonal sum of h1p[a][a] * n_a is replaced
by the flat penalty sum of (n_a + 1), and the electronic diagonal is read
at the hstack-scrambled beta column instead of the entry's own column.
The uncorrected equality claimed by the spec is refuted by the
counterexample theorem. -/
theorem claim_C2 (nsite na nb nmode nphMax : ℕ) (c1e : C1E nsite na nb)
    (c2e : C2E nsite na nb) (h2e : Mat4 nsite) (h1e1p : EPMat nsite nmode)
    (h1p : Mat2 nmode) (hdiagE : Fin na → Fin nb → ℝ)
    (hcons : ∀ y : EIdx na nb, hdiagE y.1 y.2 = c2e h2e (ebasis na nb y) y)
    (hzero : h1e1p = fun _ _ _ => 0)
    (hzmat : ∀ (col : ECol na nb) (y : EIdx na nb),
      c1e (fun _ _ => 0) col y = 0)
    (x0 : EIdx na nb) (p0 : Conf nmode) (hbox : InBox nphMax p0) :
    make_hdiag na nb nmode nphMax hdiagE x0 p0 =
      dotc na nb nmode nphMax (cbasis na nb nmode x0 p0)
          (hop nsite na nb nmode nphMax c1e c2e h2e h1e1p h1p
            (cbasis na nb nmode x0 p0))
        - (∑ alph : Fin nmode, h1p alph alph * (p0 alph : ℝ))
        + (∑ alph : Fin nmode, ((p0 alph : ℝ) + 1))
        + (hdiagE x0.1 (scrCol nphMax x0.2 p0) - hdiagE x0.1 x0.2) := by
  rw [dotc_cbasis na nb nmode nphMax x0 p0 hbox]
  have hE0 : contract_h1e1p nsite na nb nmode nphMax c1e h1e1p
      (cbasis na nb nmode x0 p0) x0 p0 = 0 := by
    rw [contract_h1e1p_apply]
    refine Finset.sum_eq_zero fun alph _ => Finset.sum_eq_zero fun nph _ => ?_
    have hcE : ∀ q : Conf nmode, hcE_of nsite na nb nmode c1e h1e1p
        (cbasis na nb nmode x0 p0) alph x0 q = 0 := by
      intro q
      unfold hcE_of
      rw [hzero]
      exact hzmat _ x0
    rw [hcE, hcE]
    simp
  have h2part : contract_h2e nsite na nb nmode c2e h2e
      (cbasis na nb nmode x0 p0) x0 p0 = hdiagE x0.1 x0.2 := by
    unfold contract_h2e
    have hcol : (fun y => cbasis na nb nmode x0 p0 y p0) = ebasis na nb x0 := by
      funext y
      unfold cbasis ebasis
      simp
    rw [hcol]
    exact (hcons x0).symm
  rw [make_hdiag_apply]
  unfold hop
  rw [h2part, hE0, contract_h1p_cbasis na nb nmode nphMax h1p x0 p0 hbox]
  have hpen : (∑ alph : Fin nmode,
      (if p0 alph < nphMax + 1 then ((p0 alph : ℝ) + 1) else 0)) =
      ∑ alph : Fin nmode, ((p0 alph : ℝ) + 1) :=
    Finset.sum_congr rfl fun alph _ =>
      if_pos (Nat.lt_succ_of_le (hbox alph))
  rw [hpen]
  ring

/-- Counterexample to claim C2 as stated: a system with one electronic
pair, one mode, nph_max = 0, h1e1p identically zero, all electronic
capabilities zero (so the capability diagonal consistency holds
trivially) and h1p = [[1]].  The only make_hdiag entry is 0 + (0+1) = 1
(flat penalty), while dot(e_0, hop(e_0)) = 0: the claimed equality
fails at the explicit input (0,0) with the vacuum phonon configuration. -/
theorem claim_C2_cex :
    (∀ y : EIdx 1 1, (fun (_ : Fin 1) (_ : Fin 1) => (0 : ℝ)) y.1 y.2 =
      (fun (_ : Mat4 1) (_ : ECol 1 1) (_ : EIdx 1 1) => (0 : ℝ))
        (fun _ _ _ _ => 0) (ebasis 1 1 y) y) ∧
    make_hdiag 1 1 1 0 (fun _ _ => 0) (0, 0) (fun _ => 0) ≠
      dotc 1 1 1 0 (cbasis 1 1 1 (0, 0) (fun _ => 0))
        (hop 1 1 1 1 0 (fun _ _ _ => 0) (fun _ _ _ => 0) (fun _ _ _ _ => 0)
          (fun _ _ _ => 0) (fun _ _ => 1) (cbasis 1 1 1 (0, 0) (fun _ => 0))) := by
  refine ⟨fun y => rfl, ?_⟩
  have hbox : InBox 0 (fun _ : Fin 1 => 0) := fun alph => le_refl 0
  rw [dotc_cbasis 1 1 1 0 (0, 0) (fun _ => 0) hbox]
  have hL : make_hdiag 1 1 1 0 (fun _ _ => (0 : ℝ)) (0, 0) (fun _ => 0) = 1 := by
    rw [make_hdiag_apply]
    simp [Fin.sum_univ_one]
  have hR : hop 1 1 1 1 0 (fun _ _ _ => 0) (fun _ _ _ => 0) (fun _ _ _ _ => 0)
      (fun _ _ _ => 0) (fun _ _ => 1) (cbasis 1 1 1 (0, 0) (fun _ => 0))
      (0, 0) (fun _ => 0) = 0 := by
    unfold hop contract_h2e
    rw [contract_h1e1p_apply, contract_h1p_closed]
    simp
  rw [hL, hR]
  norm_num

/-- Witness for the amended claim C2 at a concrete instance: one
electronic pair, one mode, nph_max = 1, zero capabilities, h1p = [[2]],
evaluated at the in-box configuration with occupation 1. -/
theorem claim_C2_witness :
    (∀ y : EIdx 1 1, (fun (_ : Fin 1) (_ : Fin 1) => (0 : ℝ)) y.1 y.2 =
      (fun (_ : Mat4 1) (_ : ECol 1 1) (_ : EIdx 1 1) => (0 : ℝ))
        (fun _ _ _ _ => 0) (ebasis 1 1 y) y) ∧
    ((fun (_ : Fin 1) (_ : Fin 1) (_ : Fin 1) => (0 : ℝ)) =
      fun _ _ _ => 0) ∧
    (∀ (col : ECol 1 1) (y : EIdx 1 1),
      (fun (_ : Mat2 1) (_ : ECol 1 1) (_ : EIdx 1 1) => (0 : ℝ))
        (fun _ _ => 0) col y = 0) ∧
    InBox 1 (fun _ : Fin 1 => 1) ∧
    make_hdiag 1 1 1 1 (fun _ _ => 0) (0, 0) (fun _ => 1) =
      dotc 1 1 1 1 (cbasis 1 1 1 (0, 0) (fun _ => 1))
          (hop 1 1 1 1 1 (fun _ _ _ => 0) (fun _ _ _ => 0) (fun _ _ _ _ => 0)
            (fun _ _ _ => 0) (fun _ _ => 2) (cbasis 1 1 1 (0, 0) (fun _ => 1)))
        - (∑ alph : Fin 1, (fun (_ : Fin 1) (_ : Fin 1) => (2 : ℝ)) alph alph *
            (((fun _ : Fin 1 => 1) alph : ℕ) : ℝ))
        + (∑ alph : Fin 1, ((((fun _ : Fin 1 => 1) alph : ℕ) : ℝ) + 1))
        + ((fun (_ : Fin 1) (_ : Fin 1) => (0 : ℝ)) ((0, 0) : EIdx 1 1).1
              (scrCol 1 ((0, 0) : EIdx 1 1).2 (fun _ : Fin 1 => 1)) -
            (fun (_ : Fin 1) (_ : Fin 1) => (0 : ℝ)) ((0, 0) : EIdx 1 1).1
              ((0, 0) : EIdx 1 1).2) :=
  ⟨fun _ => rfl, rfl, fun _ _ => rfl, fun _ => le_refl 1,
    claim_C2 1 1 1 1 1 (fun _ _ _ => 0) (fun _ _ _ => 0) (fun _ _ _ _ => 0)
      (fun _ _ _ => 0) (fun _ _ => 2) (fun _ _ => 0) (fun _ => rfl) rfl
      (fun _ _ => rfl) (0, 0) (fun _ => 1) (fun _ => le_refl 1)⟩

end

end Pygfn
